import Mathlib

/-!
Verification of the vector-expansion (scalarization) pass of the Aseba
compiler, `compiler/tree-expand.cpp`.

The pass works on a polymorphic AST (`Node` and its subclasses, declared in
`tree.h`).  `tree-expand.cpp` defines the two memory-layout queries
`getMemorySize` / `getMemoryAddr` and the recursive rewrite `treeExpand`.
C++ `unsigned int` arithmetic is modelled as `Nat` arithmetic modulo `2^32`;
C++ `int` values are modelled as `Int` with explicit conversion to unsigned
where the source converts.  Exceptions (`throw Error(...)`) and failed
`assert`s / out-of-bounds accesses are modelled with `Except`.

The memory-size and memory-address queries are embedded in a
state-explicit style: each returns its result *and* the tree it leaves
behind, so that the absence of mutation is a provable statement rather than
an artifact of the embedding.
-/

namespace Aseba

/-- Width modulus of the C++ `unsigned int` type: `2^32`. -/
def UW : Nat := 2 ^ 32

/-- Modelled from the spec: the sentinel "unknown" value `E_NOVAL` that the
source overloads onto an `unsigned` to mean "no value / not resolvable at
compile time" (its declaration lives in `tree.h`, which is not among the
sources).  As an unsigned sentinel it is `(unsigned)-1 = 2^32 - 1`. -/
def E_NOVAL : Nat := UW - 1

/-- C++ conversion of a signed `int` value to `unsigned int`:
reduction modulo `2^32`. -/
def toUnsigned (i : Int) : Nat := (i % (UW : Int)).toNat

/-- The AST node hierarchy of the pass.  Each C++ subclass of `Node`
manipulated by `tree-expand.cpp` is one constructor; every node carries its
`sourcePos` (abstracted to a `Nat` token position).  Operators of the
arithmetic nodes are abstracted to a `Nat` code.  A `MemoryVector`
(`MemoryVectorNode`, the MemoryReference of the design) carries the resolved
`arrayAddr` / `arraySize` metadata and its read/write flag. -/
inductive Node where
  | Block (sourcePos : Nat) (children : List Node)
  | Assignment (sourcePos : Nat) (children : List Node)
  | BinaryArithmetic (sourcePos : Nat) (op : Nat) (children : List Node)
  | UnaryArithmetic (sourcePos : Nat) (op : Nat) (children : List Node)
  | StaticVector (sourcePos : Nat) (values : List Int)
  | MemoryVector (sourcePos : Nat) (arrayAddr : Nat) (arraySize : Nat)
      (write : Bool) (children : List Node)
  | Immediate (sourcePos : Nat) (value : Int)
  | Load (sourcePos : Nat) (addr : Nat)
  | Store (sourcePos : Nat) (addr : Nat)

/-- The messages of the user-facing `Aseba::Error` exceptions thrown by the
pass: `"Inconsistent size! Left size: %0, right size: %1"` (carrying both
operand sizes) and `"Size mismatch between vectors"`. -/
inductive ErrMsg where
  | inconsistentSize (lSize rSize : Nat)
  | sizeMismatchVectors
deriving DecidableEq, Repr

/-- Failure modes of the pass: a thrown `Aseba::Error` carrying a source
position and a message, or a violated `assert` (this also models the
undefined behaviour of an out-of-bounds `children[i]` access, which the
source guards by asserts on the expected child counts). -/
inductive Err where
  | userError (sourcePos : Nat) (msg : ErrMsg)
  | assertFail
deriving DecidableEq, Repr

/-- Modelled from the spec: `tree.h` (absent from the sources) declares the
`getMemorySize` override for the scalar leaf variants; an Immediate, Load or
Store spans exactly one memory cell. -/
def scalarLeafMemorySize : Nat := 1

/-- Modelled from the spec: `tree.h` (absent from the sources) declares the
`getMemorySize` override for `StaticVectorNode`; a literal vector spans as
many cells as it has values. -/
def staticVectorMemorySize (values : List Int) : Nat := values.length

/-- The ordered children of a node (the `children` vector of `Node`). -/
def Node.children : Node → List Node
  | .Block _ cs => cs
  | .Assignment _ cs => cs
  | .BinaryArithmetic _ _ cs => cs
  | .UnaryArithmetic _ _ cs => cs
  | .MemoryVector _ _ _ _ cs => cs
  | .StaticVector _ _ => []
  | .Immediate _ _ => []
  | .Load _ _ => []
  | .Store _ _ => []

/-- Whether a node is a `StaticVectorNode` (a compile-time-constant literal
vector); this is what the source's `dynamic_cast<StaticVectorNode*>` tests. -/
def isStaticVector : Node → Bool
  | .StaticVector _ _ => true
  | _ => false

/-- Whether a node is a `MemoryVectorNode` (an unexpanded memory reference);
this is what the source's `dynamic_cast<MemoryVectorNode*>` tests. -/
def isMemoryVector : Node → Bool
  | .MemoryVector _ _ _ _ _ => true
  | _ => false

/-- Whether a node is one of the scalar-granularity leaf variants that code
generation accepts: Immediate, Load or Store. -/
def isScalarLeaf : Node → Bool
  | .Immediate _ _ => true
  | .Load _ _ => true
  | .Store _ _ => true
  | _ => false

/-- `StaticVectorNode::getValue(index)`: asserts `index < getMemorySize()`
(the element count of the literal) and returns `values[index]`. -/
def svGetValue (values : List Int) (index : Nat) : Except Err Int :=
  if h : index < values.length then .ok values[index] else .error .assertFail

mutual

/-- A size measure on nodes used for the termination of the recursive
functions below (it only counts constructors, ignoring payload data, so
that flipping the write flag of a `MemoryVector` does not change it). -/
def nsize : Node → Nat
  | .Block _ cs => 1 + nsizeList cs
  | .Assignment _ cs => 1 + nsizeList cs
  | .BinaryArithmetic _ _ cs => 1 + nsizeList cs
  | .UnaryArithmetic _ _ cs => 1 + nsizeList cs
  | .MemoryVector _ _ _ _ cs => 1 + nsizeList cs
  | .StaticVector _ _ => 1
  | .Immediate _ _ => 1
  | .Load _ _ => 1
  | .Store _ _ => 1

/-- List companion of the `nsize` measure. -/
def nsizeList : List Node → Nat
  | [] => 0
  | c :: cs => nsize c + nsizeList cs + 1

end

mutual

/-- `Node::getMemorySize` / `MemoryVectorNode::getMemorySize` and the leaf
overrides, in a state-explicit rendering: the result of the query together
with the tree the call leaves behind (the C++ methods are `const`; the
embedding makes "no mutation" provable instead of assumed).

* generic `Node::getMemorySize` (used by Block, Assignment,
  BinaryArithmetic, UnaryArithmetic): folds over the children, starting
  from the sentinel `E_NOVAL`; a child size replaces the accumulator while
  the accumulator is still `E_NOVAL`, and any later disagreement throws
  `Error(sourcePos, "Size mismatch between vectors")`;
* `MemoryVectorNode::getMemorySize`: asserts at most one (index) child;
  with no index child returns the declared `arraySize`; with a
  compile-time-constant (`StaticVectorNode`) index child of one value
  returns 1, and otherwise returns `getValue(1) - getValue(0) + 1` in
  `int` arithmetic converted to `unsigned`; with a non-constant index
  child returns 1;
* Modelled from the spec (`tree.h` overrides, absent from the sources):
  Immediate, Load and Store have size 1; a StaticVector literal's size is
  its element count. -/
def getMemorySizeS : Node → (Except Err Nat) × Node
  | .Block p cs =>
    match sizeFoldS p E_NOVAL cs with
    | (r, cs') => (r, .Block p cs')
  | .Assignment p cs =>
    match sizeFoldS p E_NOVAL cs with
    | (r, cs') => (r, .Assignment p cs')
  | .BinaryArithmetic p op cs =>
    match sizeFoldS p E_NOVAL cs with
    | (r, cs') => (r, .BinaryArithmetic p op cs')
  | .UnaryArithmetic p op cs =>
    match sizeFoldS p E_NOVAL cs with
    | (r, cs') => (r, .UnaryArithmetic p op cs')
  | .MemoryVector p a sz w cs =>
    match cs with
    | [] => (.ok sz, .MemoryVector p a sz w [])
    | [c] =>
      match c with
      | .StaticVector q vals =>
        if staticVectorMemorySize vals = 1 then
          (.ok 1, .MemoryVector p a sz w [.StaticVector q vals])
        else
          match svGetValue vals 1, svGetValue vals 0 with
          | .ok hi, .ok lo =>
            (.ok (toUnsigned (hi - lo + 1)), .MemoryVector p a sz w [.StaticVector q vals])
          | _, _ => (.error .assertFail, .MemoryVector p a sz w [.StaticVector q vals])
      | c => (.ok 1, .MemoryVector p a sz w [c])
    | cs => (.error .assertFail, .MemoryVector p a sz w cs)
  | .StaticVector p vals => (.ok (staticVectorMemorySize vals), .StaticVector p vals)
  | .Immediate p v => (.ok scalarLeafMemorySize, .Immediate p v)
  | .Load p a => (.ok scalarLeafMemorySize, .Load p a)
  | .Store p a => (.ok scalarLeafMemorySize, .Store p a)

/-- The child loop of the generic `Node::getMemorySize`: `size` starts at
`E_NOVAL` and is folded over the children's sizes, throwing
`Error(sourcePos, "Size mismatch between vectors")` on a disagreement
between two resolved (non-sentinel) sizes. -/
def sizeFoldS (pos acc : Nat) : List Node → (Except Err Nat) × List Node
  | [] => (.ok acc, [])
  | c :: cs =>
    match getMemorySizeS c with
    | (.error e, c') => (.error e, c' :: cs)
    | (.ok newSize, c') =>
      if acc = E_NOVAL then
        match sizeFoldS pos newSize cs with
        | (r, cs') => (r, c' :: cs')
      else if acc ≠ newSize then
        (.error (.userError pos .sizeMismatchVectors), c' :: cs)
      else
        match sizeFoldS pos acc cs with
        | (r, cs') => (r, c' :: cs')

end

/-- `Node::getMemoryAddr` / `MemoryVectorNode::getMemoryAddr`, state-explicit
as above.

* generic `Node::getMemoryAddr`: delegates to the first child if any,
  otherwise returns the sentinel `E_NOVAL`;
* `MemoryVectorNode::getMemoryAddr`: asserts at most one (index) child;
  the shift is 0 with no index child and `getValue(0)` (converted to
  `unsigned`) for a compile-time-constant index child; a non-constant
  index child yields the sentinel `E_NOVAL`; otherwise returns
  `arrayAddr + shift` in unsigned arithmetic;
* Modelled from the spec (`tree.h` overrides, absent from the sources):
  Load and Store answer the absolute address they carry. -/
def getMemoryAddrS : Node → (Except Err Nat) × Node
  | .MemoryVector p a sz w cs =>
    match cs with
    | [] => (.ok ((a + 0) % UW), .MemoryVector p a sz w [])
    | [c] =>
      match c with
      | .StaticVector q vals =>
        match svGetValue vals 0 with
        | .ok v => (.ok ((a + toUnsigned v) % UW), .MemoryVector p a sz w [.StaticVector q vals])
        | .error e => (.error e, .MemoryVector p a sz w [.StaticVector q vals])
      | c => (.ok E_NOVAL, .MemoryVector p a sz w [c])
    | cs => (.error .assertFail, .MemoryVector p a sz w cs)
  | .Load p a => (.ok a, .Load p a)
  | .Store p a => (.ok a, .Store p a)
  | .Block p (c :: cs) =>
    match getMemoryAddrS c with
    | (r, c') => (r, .Block p (c' :: cs))
  | .Block p [] => (.ok E_NOVAL, .Block p [])
  | .Assignment p (c :: cs) =>
    match getMemoryAddrS c with
    | (r, c') => (r, .Assignment p (c' :: cs))
  | .Assignment p [] => (.ok E_NOVAL, .Assignment p [])
  | .BinaryArithmetic p op (c :: cs) =>
    match getMemoryAddrS c with
    | (r, c') => (r, .BinaryArithmetic p op (c' :: cs))
  | .BinaryArithmetic p op [] => (.ok E_NOVAL, .BinaryArithmetic p op [])
  | .UnaryArithmetic p op (c :: cs) =>
    match getMemoryAddrS c with
    | (r, c') => (r, .UnaryArithmetic p op (c' :: cs))
  | .UnaryArithmetic p op [] => (.ok E_NOVAL, .UnaryArithmetic p op [])
  | .StaticVector p vals => (.ok E_NOVAL, .StaticVector p vals)
  | .Immediate p v => (.ok E_NOVAL, .Immediate p v)

/-- The value returned by the `getMemorySize` query (first component of the
state-explicit rendering). -/
def getMemorySize (n : Node) : Except Err Nat := (getMemorySizeS n).1

/-- The value returned by the `getMemoryAddr` query (first component of the
state-explicit rendering). -/
def getMemoryAddr (n : Node) : Except Err Nat := (getMemoryAddrS n).1

/-- `MemoryVectorNode::setWrite(bool)`: sets the write flag of a memory
reference (on any other node it is meaningless and leaves it unchanged). -/
def setWrite (n : Node) (b : Bool) : Node :=
  match n with
  | .MemoryVector p a sz _ cs => .MemoryVector p a sz b cs
  | n => n

/-- Setting the write flag does not change the `nsize` measure. -/
theorem nsize_setWrite (n : Node) (b : Bool) : nsize (setWrite n b) = nsize n := by
  cases n <;> rfl

mutual

/-- `Node::treeExpand(dump, index)` and its overrides.  `dmp` models whether
the optional diagnostic dump stream was supplied (a non-null `wostream*`);
the source only passes it through.

* generic `Node::treeExpand` (Block; also Immediate/Load/Store, which have
  no children): expands every child in place at the same index and returns
  the node;
* `AssignmentNode::treeExpand`: asserts exactly two children, queries both
  children's sizes, throws `Error(sourcePos, "Inconsistent size! ...")`
  carrying both sizes if they differ, downcasts the first child to
  `MemoryVectorNode` (asserting success), marks it for write, and returns
  a fresh `BlockNode` of one fresh single-element `AssignmentNode` per
  index `0..lSize-1` (the original node is deleted);
* `BinaryArithmeticNode::treeExpand`: checks the sizes of `children[0]`
  and `children[1]` likewise, then rebuilds a fresh node over the two
  children expanded at the incoming index;
* `UnaryArithmeticNode::treeExpand`: rebuilds over `children[0]` expanded
  at the incoming index;
* `StaticVectorNode::treeExpand`: a fresh `ImmediateNode` carrying
  `getValue(index)`;
* `MemoryVectorNode::treeExpand`: asserts `index < getMemorySize()` and
  returns a fresh `StoreNode` (when marked for write) or `LoadNode` at
  `getMemoryAddr() + index`. -/
def treeExpand (dmp : Bool) (n : Node) (index : Nat) : Except Err Node :=
  match n with
  | .Block pos cs =>
    match expandChildren dmp cs index with
    | .ok cs' => .ok (.Block pos cs')
    | .error e => .error e
  | .Assignment pos [l, r] =>
    match getMemorySize l with
    | .error e => .error e
    | .ok lSize =>
      match getMemorySize r with
      | .error e => .error e
      | .ok rSize =>
        if lSize = rSize then
          if isMemoryVector l then
            match expandAssignList dmp pos (setWrite l true) r (List.range lSize) with
            | .ok asgns => .ok (.Block pos asgns)
            | .error e => .error e
          else .error .assertFail
        else .error (.userError pos (.inconsistentSize lSize rSize))
  | .Assignment pos cs => .error .assertFail
  | .BinaryArithmetic pos op (l :: r :: rest) =>
    match getMemorySize l with
    | .error e => .error e
    | .ok lSize =>
      match getMemorySize r with
      | .error e => .error e
      | .ok rSize =>
        if lSize = rSize then
          match treeExpand dmp l index with
          | .error e => .error e
          | .ok el =>
            match treeExpand dmp r index with
            | .error e => .error e
            | .ok er => .ok (.BinaryArithmetic pos op [el, er])
        else .error (.userError pos (.inconsistentSize lSize rSize))
  | .BinaryArithmetic pos op cs => .error .assertFail
  | .UnaryArithmetic pos op (c :: rest) =>
    match treeExpand dmp c index with
    | .error e => .error e
    | .ok ec => .ok (.UnaryArithmetic pos op [ec])
  | .UnaryArithmetic pos op [] => .error .assertFail
  | .StaticVector pos vals =>
    match svGetValue vals index with
    | .ok v => .ok (.Immediate pos v)
    | .error e => .error e
  | .MemoryVector pos a sz w cs =>
    match getMemorySize (.MemoryVector pos a sz w cs) with
    | .error e => .error e
    | .ok s =>
      if index < s then
        match getMemoryAddr (.MemoryVector pos a sz w cs) with
        | .error e => .error e
        | .ok b =>
          .ok (if w then .Store pos ((b + index) % UW) else .Load pos ((b + index) % UW))
      else .error .assertFail
  | .Immediate pos v => .ok (.Immediate pos v)
  | .Load pos a => .ok (.Load pos a)
  | .Store pos a => .ok (.Store pos a)
termination_by (nsize n, 0)
decreasing_by
  all_goals simp_wf
  all_goals first
    | (apply Prod.Lex.right; omega)
    | (apply Prod.Lex.left; (try simp only [nsize_setWrite, nsize, nsizeList]); omega)

/-- The child loop of the generic `Node::treeExpand`: each child is replaced
in order by its expansion at the same index (a thrown exception propagates
immediately). -/
def expandChildren (dmp : Bool) (cs : List Node) (index : Nat) : Except Err (List Node) :=
  match cs with
  | [] => .ok []
  | c :: rest =>
    match treeExpand dmp c index with
    | .error e => .error e
    | .ok c' =>
      match expandChildren dmp rest index with
      | .error e => .error e
      | .ok rest' => .ok (c' :: rest')
termination_by (nsizeList cs, 0)
decreasing_by
  all_goals simp_wf
  all_goals first
    | (apply Prod.Lex.right; omega)
    | (apply Prod.Lex.left; (try simp only [nsize_setWrite, nsize, nsizeList]); omega)

/-- The per-dimension loop of `AssignmentNode::treeExpand`: for every index
`i` of the given list (invoked with `List.range lSize`, i.e. ascending
`0..lSize-1`), a fresh single-element `AssignmentNode` whose children are
the write-marked target and the value expanded at `i`. -/
def expandAssignList (dmp : Bool) (pos : Nat) (lv rv : Node) (is : List Nat) :
    Except Err (List Node) :=
  match is with
  | [] => .ok []
  | i :: rest =>
    match treeExpand dmp lv i with
    | .error e => .error e
    | .ok a =>
      match treeExpand dmp rv i with
      | .error e => .error e
      | .ok b =>
        match expandAssignList dmp pos lv rv rest with
        | .error e => .error e
        | .ok rest' => .ok (.Assignment pos [a, b] :: rest')
termination_by (nsize lv + nsize rv + 1, is.length)
decreasing_by
  all_goals simp_wf
  all_goals first
    | (apply Prod.Lex.right; omega)
    | (apply Prod.Lex.left; (try simp only [nsize_setWrite, nsize, nsizeList]); omega)

end

mutual

/-- The `getMemorySize` query leaves the tree unchanged. -/
theorem getMemorySizeS_snd (n : Node) : (getMemorySizeS n).2 = n := by
  cases n with
  | Block p cs =>
    have h := sizeFoldS_snd p E_NOVAL cs
    simp only [getMemorySizeS]
    rw [h]
  | Assignment p cs =>
    have h := sizeFoldS_snd p E_NOVAL cs
    simp only [getMemorySizeS]
    rw [h]
  | BinaryArithmetic p op cs =>
    have h := sizeFoldS_snd p E_NOVAL cs
    simp only [getMemorySizeS]
    rw [h]
  | UnaryArithmetic p op cs =>
    have h := sizeFoldS_snd p E_NOVAL cs
    simp only [getMemorySizeS]
    rw [h]
  | MemoryVector p a sz w cs =>
    rcases cs with _ | ⟨c, _ | ⟨c2, rest⟩⟩
    · rfl
    · cases c <;> simp only [getMemorySizeS] <;>
        first
          | rfl
          | (split <;> first | rfl | (split <;> rfl))
    · rfl
  | StaticVector p vals => rfl
  | Immediate p v => rfl
  | Load p a => rfl
  | Store p a => rfl
termination_by nsize n
decreasing_by all_goals ((try simp only [nsize, nsizeList]); omega)

/-- The child loop of the `getMemorySize` query leaves the children
unchanged. -/
theorem sizeFoldS_snd (pos acc : Nat) (cs : List Node) :
    (sizeFoldS pos acc cs).2 = cs := by
  cases cs with
  | nil => rfl
  | cons c rest =>
    have hc := getMemorySizeS_snd c
    simp only [sizeFoldS]
    split
    · rename_i e c' hx
      rw [hx] at hc
      simpa using hc
    · rename_i newSize c' hx
      rw [hx] at hc
      simp only at hc
      subst hc
      by_cases hacc : acc = E_NOVAL
      · simp only [if_pos hacc]
        rw [sizeFoldS_snd pos newSize rest]
      · simp only [if_neg hacc]
        by_cases hne : acc = newSize
        · simp only [hne, ne_eq, not_true_eq_false, if_neg, ite_false]
          rw [sizeFoldS_snd pos newSize rest]
        · simp [hne]
termination_by nsizeList cs
decreasing_by all_goals ((try simp only [nsize, nsizeList]); omega)

end

/-- The `getMemoryAddr` query leaves the tree unchanged. -/
theorem getMemoryAddrS_snd (n : Node) : (getMemoryAddrS n).2 = n := by
  cases n with
  | Block p cs =>
    cases cs with
    | nil => rfl
    | cons c rest =>
      have h := getMemoryAddrS_snd c
      simp only [getMemoryAddrS]
      rw [h]
  | Assignment p cs =>
    cases cs with
    | nil => rfl
    | cons c rest =>
      have h := getMemoryAddrS_snd c
      simp only [getMemoryAddrS]
      rw [h]
  | BinaryArithmetic p op cs =>
    cases cs with
    | nil => rfl
    | cons c rest =>
      have h := getMemoryAddrS_snd c
      simp only [getMemoryAddrS]
      rw [h]
  | UnaryArithmetic p op cs =>
    cases cs with
    | nil => rfl
    | cons c rest =>
      have h := getMemoryAddrS_snd c
      simp only [getMemoryAddrS]
      rw [h]
  | MemoryVector p a sz w cs =>
    rcases cs with _ | ⟨c, _ | ⟨c2, rest⟩⟩
    · rfl
    · cases c <;> simp only [getMemoryAddrS] <;>
        first
          | rfl
          | (split <;> first | rfl | (split <;> rfl))
    · rfl
  | StaticVector p vals => rfl
  | Immediate p v => rfl
  | Load p a => rfl
  | Store p a => rfl
termination_by nsize n
decreasing_by all_goals ((try simp only [nsize, nsizeList]); omega)

/-- The state-explicit `getMemorySize` query in value/state form. -/
theorem getMemorySizeS_eq (n : Node) : getMemorySizeS n = (getMemorySize n, n) := by
  have h := getMemorySizeS_snd n
  rcases hx : getMemorySizeS n with ⟨r, m⟩
  rw [hx] at h
  simp only at h
  subst h
  rw [getMemorySize, hx]

/-- The state-explicit `getMemoryAddr` query in value/state form. -/
theorem getMemoryAddrS_eq (n : Node) : getMemoryAddrS n = (getMemoryAddr n, n) := by
  have h := getMemoryAddrS_snd n
  rcases hx : getMemoryAddrS n with ⟨r, m⟩
  rw [hx] at h
  simp only at h
  subst h
  rw [getMemoryAddr, hx]

mutual

/-- A fully scalarized output tree: no `StaticVector` or `MemoryVector`
remains anywhere, and every composite arithmetic/assignment node still has
children (hence the only possible childless nodes are scalar leaves and
empty `Block` containers). -/
def scalarized : Node → Bool
  | .Block _ cs => scalarizedList cs
  | .Assignment _ cs => !cs.isEmpty && scalarizedList cs
  | .BinaryArithmetic _ _ cs => !cs.isEmpty && scalarizedList cs
  | .UnaryArithmetic _ _ cs => !cs.isEmpty && scalarizedList cs
  | .StaticVector _ _ => false
  | .MemoryVector _ _ _ _ _ => false
  | .Immediate _ _ => true
  | .Load _ _ => true
  | .Store _ _ => true

/-- List companion of `scalarized`. -/
def scalarizedList : List Node → Bool
  | [] => true
  | c :: cs => scalarized c && scalarizedList cs

end

mutual

/-- All nodes of a tree (the node itself and, recursively, all nodes of its
children). -/
def subnodes : Node → List Node
  | .Block p cs => .Block p cs :: subnodesList cs
  | .Assignment p cs => .Assignment p cs :: subnodesList cs
  | .BinaryArithmetic p op cs => .BinaryArithmetic p op cs :: subnodesList cs
  | .UnaryArithmetic p op cs => .UnaryArithmetic p op cs :: subnodesList cs
  | .MemoryVector p a sz w cs => .MemoryVector p a sz w cs :: subnodesList cs
  | .StaticVector p vals => [.StaticVector p vals]
  | .Immediate p v => [.Immediate p v]
  | .Load p a => [.Load p a]
  | .Store p a => [.Store p a]

/-- List companion of `subnodes`. -/
def subnodesList : List Node → List Node
  | [] => []
  | c :: cs => subnodes c ++ subnodesList cs

end

mutual

/-- A successful expansion returns a fully scalarized tree. -/
theorem expand_scalarized : ∀ (d : Bool) (n : Node) (i : Nat) (r : Node),
    treeExpand d n i = .ok r → scalarized r = true
  | d, .Block pos cs, i, r, h => by
    simp only [treeExpand] at h
    rcases hx : expandChildren d cs i with e | cs' <;> rw [hx] at h <;> simp at h
    subst h
    simpa [scalarized] using expandChildren_scalarized d cs i cs' hx
  | d, .Assignment pos [], i, r, h => by simp [treeExpand] at h
  | d, .Assignment pos [l], i, r, h => by simp [treeExpand] at h
  | d, .Assignment pos (l :: rv :: x :: rest), i, r, h => by simp [treeExpand] at h
  | d, .Assignment pos [l, rv], i, r, h => by
    simp only [treeExpand] at h
    rcases hsl : getMemorySize l with e | lSize <;> rw [hsl] at h <;> simp at h
    rcases hsr : getMemorySize rv with e | rSize <;> rw [hsr] at h <;> simp at h
    by_cases hss : lSize = rSize
    · rw [if_pos hss] at h
      by_cases hmv : isMemoryVector l
      · rw [if_pos hmv] at h
        rcases hx : expandAssignList d pos (setWrite l true) rv
            (List.range lSize) with e | asgns <;> rw [hx] at h <;> simp at h
        subst h
        simpa [scalarized] using
          expandAssignList_scalarized d pos (setWrite l true) rv
            (List.range lSize) asgns hx
      · rw [if_neg hmv] at h
        simp at h
    · rw [if_neg hss] at h
      simp at h
  | d, .BinaryArithmetic pos op [], i, r, h => by simp [treeExpand] at h
  | d, .BinaryArithmetic pos op [l], i, r, h => by simp [treeExpand] at h
  | d, .BinaryArithmetic pos op (l :: rv :: rest), i, r, h => by
    simp only [treeExpand] at h
    rcases hsl : getMemorySize l with e | lSize <;> rw [hsl] at h <;> simp at h
    rcases hsr : getMemorySize rv with e | rSize <;> rw [hsr] at h <;> simp at h
    by_cases hss : lSize = rSize
    · rw [if_pos hss] at h
      rcases hel : treeExpand d l i with e | el <;> rw [hel] at h <;> simp at h
      rcases her : treeExpand d rv i with e | er <;> rw [her] at h <;> simp at h
      subst h
      have h1 := expand_scalarized d l i el hel
      have h2 := expand_scalarized d rv i er her
      simp [scalarized, scalarizedList, h1, h2]
    · rw [if_neg hss] at h
      simp at h
  | d, .UnaryArithmetic pos op [], i, r, h => by simp [treeExpand] at h
  | d, .UnaryArithmetic pos op (c :: rest), i, r, h => by
    simp only [treeExpand] at h
    rcases hec : treeExpand d c i with e | ec <;> rw [hec] at h <;> simp at h
    subst h
    have h1 := expand_scalarized d c i ec hec
    simp [scalarized, scalarizedList, h1]
  | d, .StaticVector pos vals, i, r, h => by
    simp only [treeExpand] at h
    rcases hv : svGetValue vals i with e | v <;> rw [hv] at h <;> simp at h
    subst h
    rfl
  | d, .MemoryVector pos a sz w cs, i, r, h => by
    simp only [treeExpand] at h
    rcases hs : getMemorySize (.MemoryVector pos a sz w cs) with e | s <;>
      rw [hs] at h <;> simp at h
    by_cases hi : i < s
    · rw [if_pos hi] at h
      rcases hb : getMemoryAddr (.MemoryVector pos a sz w cs) with e | b <;>
        rw [hb] at h <;> simp at h
      subst h
      cases w <;> rfl
    · rw [if_neg hi] at h
      simp at h
  | d, .Immediate pos v, i, r, h => by
    simp only [treeExpand] at h
    simp at h
    subst h
    rfl
  | d, .Load pos a, i, r, h => by
    simp only [treeExpand] at h
    simp at h
    subst h
    rfl
  | d, .Store pos a, i, r, h => by
    simp only [treeExpand] at h
    simp at h
    subst h
    rfl
termination_by d n i r h => (nsize n, 0)
decreasing_by
  all_goals simp_wf
  all_goals first
    | (apply Prod.Lex.right; omega)
    | (apply Prod.Lex.left; (try simp only [nsize_setWrite, nsize, nsizeList]); omega)

/-- A successful expansion of a child list returns scalarized children. -/
theorem expandChildren_scalarized : ∀ (d : Bool) (cs : List Node) (i : Nat)
    (cs2 : List Node), expandChildren d cs i = .ok cs2 → scalarizedList cs2 = true
  | d, [], i, cs2, h => by
    simp only [expandChildren] at h
    simp at h
    subst h
    rfl
  | d, c :: rest, i, cs2, h => by
    simp only [expandChildren] at h
    rcases hc : treeExpand d c i with e | cv <;> rw [hc] at h <;> simp at h
    rcases hr : expandChildren d rest i with e | rest2 <;> rw [hr] at h <;> simp at h
    subst h
    have h1 := expand_scalarized d c i cv hc
    have h2 := expandChildren_scalarized d rest i rest2 hr
    simp [scalarizedList, h1, h2]
termination_by d cs i cs2 h => (nsizeList cs, 0)
decreasing_by
  all_goals simp_wf
  all_goals first
    | (apply Prod.Lex.right; omega)
    | (apply Prod.Lex.left; (try simp only [nsize_setWrite, nsize, nsizeList]); omega)

/-- A successful run of the per-dimension assignment loop returns
scalarized single-element assignments. -/
theorem expandAssignList_scalarized : ∀ (d : Bool) (pos : Nat) (lv rv : Node)
    (is : List Nat) (as2 : List Node), expandAssignList d pos lv rv is = .ok as2 →
    scalarizedList as2 = true
  | d, pos, lv, rv, [], as2, h => by
    simp only [expandAssignList] at h
    simp at h
    subst h
    rfl
  | d, pos, lv, rv, i :: rest, as2, h => by
    simp only [expandAssignList] at h
    rcases ha : treeExpand d lv i with e | a <;> rw [ha] at h <;> simp at h
    rcases hb : treeExpand d rv i with e | b <;> rw [hb] at h <;> simp at h
    rcases hr : expandAssignList d pos lv rv rest with e | rest2 <;>
      rw [hr] at h <;> simp at h
    subst h
    have h1 := expand_scalarized d lv i a ha
    have h2 := expand_scalarized d rv i b hb
    have h3 := expandAssignList_scalarized d pos lv rv rest rest2 hr
    simp [scalarizedList, scalarized, h1, h2, h3]
termination_by d pos lv rv is as2 h => (nsize lv + nsize rv + 1, is.length)
decreasing_by
  all_goals simp_wf
  all_goals first
    | (apply Prod.Lex.right; omega)
    | (apply Prod.Lex.left; (try simp only [nsize_setWrite, nsize, nsizeList]); omega)

end

mutual

/-- Every node of a scalarized tree is neither a literal vector nor a
memory reference, and if childless it is a scalar leaf of memory size 1 or
an empty container Block. -/
theorem scalarized_mem : ∀ (n m : Node), scalarized n = true → m ∈ subnodes n →
    isStaticVector m = false ∧ isMemoryVector m = false ∧
      (Node.children m = [] →
        (isScalarLeaf m = true ∧ getMemorySize m = .ok 1) ∨ ∃ q, m = .Block q [])
  | .Block p cs, m, h, hm => by
    simp only [subnodes, List.mem_cons] at hm
    rcases hm with hm | hm
    · subst hm
      refine ⟨rfl, rfl, fun hc => ?_⟩
      simp only [Node.children] at hc
      subst hc
      exact Or.inr ⟨p, rfl⟩
    · exact scalarizedList_mem cs m (by simpa [scalarized] using h) hm
  | .Assignment p cs, m, h, hm => by
    simp only [scalarized, Bool.and_eq_true] at h
    simp only [subnodes, List.mem_cons] at hm
    rcases hm with hm | hm
    · subst hm
      refine ⟨rfl, rfl, fun hc => ?_⟩
      simp only [Node.children] at hc
      subst hc
      simp at h
    · exact scalarizedList_mem cs m h.2 hm
  | .BinaryArithmetic p op cs, m, h, hm => by
    simp only [scalarized, Bool.and_eq_true] at h
    simp only [subnodes, List.mem_cons] at hm
    rcases hm with hm | hm
    · subst hm
      refine ⟨rfl, rfl, fun hc => ?_⟩
      simp only [Node.children] at hc
      subst hc
      simp at h
    · exact scalarizedList_mem cs m h.2 hm
  | .UnaryArithmetic p op cs, m, h, hm => by
    simp only [scalarized, Bool.and_eq_true] at h
    simp only [subnodes, List.mem_cons] at hm
    rcases hm with hm | hm
    · subst hm
      refine ⟨rfl, rfl, fun hc => ?_⟩
      simp only [Node.children] at hc
      subst hc
      simp at h
    · exact scalarizedList_mem cs m h.2 hm
  | .StaticVector p vals, m, h, hm => by simp [scalarized] at h
  | .MemoryVector p a sz w cs, m, h, hm => by simp [scalarized] at h
  | .Immediate p v, m, h, hm => by
    simp only [subnodes, List.mem_singleton] at hm
    subst hm
    exact ⟨rfl, rfl, fun _ => Or.inl ⟨rfl, rfl⟩⟩
  | .Load p a, m, h, hm => by
    simp only [subnodes, List.mem_singleton] at hm
    subst hm
    exact ⟨rfl, rfl, fun _ => Or.inl ⟨rfl, rfl⟩⟩
  | .Store p a, m, h, hm => by
    simp only [subnodes, List.mem_singleton] at hm
    subst hm
    exact ⟨rfl, rfl, fun _ => Or.inl ⟨rfl, rfl⟩⟩
termination_by n m h hm => nsize n
decreasing_by all_goals ((try simp only [nsize, nsizeList]); omega)

/-- List companion of `scalarized_mem`. -/
theorem scalarizedList_mem : ∀ (cs : List Node) (m : Node),
    scalarizedList cs = true → m ∈ subnodesList cs →
    isStaticVector m = false ∧ isMemoryVector m = false ∧
      (Node.children m = [] →
        (isScalarLeaf m = true ∧ getMemorySize m = .ok 1) ∨ ∃ q, m = .Block q [])
  | [], m, h, hm => by simp [subnodesList] at hm
  | c :: cs, m, h, hm => by
    simp only [subnodesList, List.mem_append] at hm
    simp only [scalarizedList, Bool.and_eq_true] at h
    rcases hm with hm | hm
    · exact scalarized_mem c m h.1 hm
    · exact scalarizedList_mem cs m h.2 hm
termination_by cs m h hm => nsizeList cs
decreasing_by all_goals ((try simp only [nsize, nsizeList]); omega)

end

mutual

/-- The result of `treeExpand` does not depend on whether the diagnostic
dump stream is supplied. -/
theorem expand_dump : ∀ (n : Node) (i : Nat) (a b : Bool),
    treeExpand a n i = treeExpand b n i
  | .Block pos cs, i, a, b => by
    simp only [treeExpand, expandChildren_dump cs i a b]
  | .Assignment pos [], i, a, b => by simp only [treeExpand]
  | .Assignment pos [l], i, a, b => by simp only [treeExpand]
  | .Assignment pos (l :: rv :: x :: rest), i, a, b => by simp only [treeExpand]
  | .Assignment pos [l, rv], i, a, b => by
    simp only [treeExpand]
    rcases getMemorySize l with e1 | lSize
    · rfl
    · rcases getMemorySize rv with e2 | rSize
      · rfl
      · dsimp only
        by_cases hss : lSize = rSize
        · rw [if_pos hss, if_pos hss]
          by_cases hmv : isMemoryVector l = true
          · rw [if_pos hmv, if_pos hmv,
              expandAssignList_dump pos (setWrite l true) rv (List.range lSize) a b]
          · rw [if_neg hmv, if_neg hmv]
        · rw [if_neg hss, if_neg hss]
  | .BinaryArithmetic pos op [], i, a, b => by simp only [treeExpand]
  | .BinaryArithmetic pos op [l], i, a, b => by simp only [treeExpand]
  | .BinaryArithmetic pos op (l :: rv :: rest), i, a, b => by
    simp only [treeExpand]
    rcases getMemorySize l with e1 | lSize
    · rfl
    · rcases getMemorySize rv with e2 | rSize
      · rfl
      · dsimp only
        by_cases hss : lSize = rSize
        · rw [if_pos hss, if_pos hss, expand_dump l i a b, expand_dump rv i a b]
        · rw [if_neg hss, if_neg hss]
  | .UnaryArithmetic pos op [], i, a, b => by simp only [treeExpand]
  | .UnaryArithmetic pos op (c :: rest), i, a, b => by
    simp only [treeExpand, expand_dump c i a b]
  | .StaticVector pos vals, i, a, b => by simp only [treeExpand]
  | .MemoryVector pos ad sz w cs, i, a, b => by simp only [treeExpand]
  | .Immediate pos v, i, a, b => by simp only [treeExpand]
  | .Load pos ad, i, a, b => by simp only [treeExpand]
  | .Store pos ad, i, a, b => by simp only [treeExpand]
termination_by n i a b => (nsize n, 0)
decreasing_by
  all_goals simp_wf
  all_goals first
    | (apply Prod.Lex.right; omega)
    | (apply Prod.Lex.left; (try simp only [nsize_setWrite, nsize, nsizeList]); omega)

/-- The child loop of the generic `treeExpand` does not depend on the dump
stream. -/
theorem expandChildren_dump : ∀ (cs : List Node) (i : Nat) (a b : Bool),
    expandChildren a cs i = expandChildren b cs i
  | [], i, a, b => by simp only [expandChildren]
  | c :: rest, i, a, b => by
    simp only [expandChildren, expand_dump c i a b, expandChildren_dump rest i a b]
termination_by cs i a b => (nsizeList cs, 0)
decreasing_by
  all_goals simp_wf
  all_goals first
    | (apply Prod.Lex.right; omega)
    | (apply Prod.Lex.left; (try simp only [nsize_setWrite, nsize, nsizeList]); omega)

/-- The assignment loop of `treeExpand` does not depend on the dump
stream. -/
theorem expandAssignList_dump : ∀ (pos : Nat) (lv rv : Node) (is : List Nat)
    (a b : Bool), expandAssignList a pos lv rv is = expandAssignList b pos lv rv is
  | pos, lv, rv, [], a, b => by simp only [expandAssignList]
  | pos, lv, rv, i :: rest, a, b => by
    simp only [expandAssignList, expand_dump lv i a b, expand_dump rv i a b,
      expandAssignList_dump pos lv rv rest a b]
termination_by pos lv rv is a b => (nsize lv + nsize rv + 1, is.length)
decreasing_by
  all_goals simp_wf
  all_goals first
    | (apply Prod.Lex.right; omega)
    | (apply Prod.Lex.left; (try simp only [nsize_setWrite, nsize, nsizeList]); omega)

end

/-- The write flag of a memory reference does not influence its memory
size. -/
theorem getMemorySize_write_irrel (p a sz : Nat) (w v : Bool) (cs : List Node) :
    getMemorySize (.MemoryVector p a sz w cs) = getMemorySize (.MemoryVector p a sz v cs) := by
  rcases cs with _ | ⟨c, _ | ⟨c2, rest⟩⟩
  · rfl
  · cases c <;> simp only [getMemorySize, getMemorySizeS] <;>
      first
        | rfl
        | (split <;> first | rfl | (split <;> rfl))
  · rfl

/-- The write flag of a memory reference does not influence its memory
address. -/
theorem getMemoryAddr_write_irrel (p a sz : Nat) (w v : Bool) (cs : List Node) :
    getMemoryAddr (.MemoryVector p a sz w cs) = getMemoryAddr (.MemoryVector p a sz v cs) := by
  rcases cs with _ | ⟨c, _ | ⟨c2, rest⟩⟩
  · rfl
  · cases c <;> simp only [getMemoryAddr, getMemoryAddrS] <;>
      first
        | rfl
        | (split <;> first | rfl | (split <;> rfl))
  · rfl

/-- If a memory reference's size query succeeds, its address query also
succeeds. -/
theorem getMemoryAddr_ok_of_size (p a sz : Nat) (w : Bool) (cs : List Node) (n : Nat)
    (h : getMemorySize (.MemoryVector p a sz w cs) = .ok n) :
    ∃ b, getMemoryAddr (.MemoryVector p a sz w cs) = .ok b := by
  rcases cs with _ | ⟨c, _ | ⟨c2, rest⟩⟩
  · exact ⟨(a + 0) % UW, rfl⟩
  · cases c with
    | StaticVector q vals =>
      rcases vals with _ | ⟨v0, vtail⟩
      · exfalso
        simp [getMemorySize, getMemorySizeS, staticVectorMemorySize, svGetValue] at h
      · exact ⟨(a + toUnsigned v0) % UW, by simp [getMemoryAddr, getMemoryAddrS, svGetValue]⟩
    | Block q qcs => exact ⟨E_NOVAL, rfl⟩
    | Assignment q qcs => exact ⟨E_NOVAL, rfl⟩
    | BinaryArithmetic q qop qcs => exact ⟨E_NOVAL, rfl⟩
    | UnaryArithmetic q qop qcs => exact ⟨E_NOVAL, rfl⟩
    | MemoryVector q qa qsz qw qcs => exact ⟨E_NOVAL, rfl⟩
    | Immediate q qv => exact ⟨E_NOVAL, rfl⟩
    | Load q qa => exact ⟨E_NOVAL, rfl⟩
    | Store q qa => exact ⟨E_NOVAL, rfl⟩
  · exfalso
    simp [getMemorySize, getMemorySizeS] at h

/-- In-range expansion of a memory reference with resolved size and address
yields a Store (when marked for write) or a Load at `address + index` in
unsigned arithmetic. -/
theorem mv_expand_eq (d : Bool) (p a sz : Nat) (w : Bool) (cs : List Node)
    (n b i : Nat) (hs : getMemorySize (.MemoryVector p a sz w cs) = .ok n)
    (hb : getMemoryAddr (.MemoryVector p a sz w cs) = .ok b) (hi : i < n) :
    treeExpand d (.MemoryVector p a sz w cs) i
      = .ok (if w then .Store p ((b + i) % UW) else .Load p ((b + i) % UW)) := by
  simp only [treeExpand, hs, hb, hi, if_true]

/-- In-range expansion of a memory reference whose size query succeeds
always succeeds. -/
theorem mv_expand_ok (d : Bool) (p a sz : Nat) (w : Bool) (cs : List Node)
    (n i : Nat) (hs : getMemorySize (.MemoryVector p a sz w cs) = .ok n)
    (hi : i < n) : ∃ out, treeExpand d (.MemoryVector p a sz w cs) i = .ok out := by
  obtain ⟨b, hb⟩ := getMemoryAddr_ok_of_size p a sz w cs n hs
  exact ⟨_, mv_expand_eq d p a sz w cs n b i hs hb hi⟩

/-- Characterization of the per-dimension assignment loop: when the
expansions of the (write-marked) target and of the value succeed at every
listed index, the loop returns one fresh single-element Assignment per
index, in the listed order, pairing the two expansions of that index. -/
theorem expandAssignList_ok (d : Bool) (pos : Nat) (lv rv : Node) :
    ∀ is : List Nat,
      (∀ i ∈ is, (∃ x, treeExpand d lv i = .ok x) ∧ ∃ y, treeExpand d rv i = .ok y) →
      ∃ as2, expandAssignList d pos lv rv is = .ok as2 ∧ as2.length = is.length ∧
        ∀ k (hk : k < is.length), ∃ x y,
          treeExpand d lv (is.get ⟨k, hk⟩) = .ok x ∧
          treeExpand d rv (is.get ⟨k, hk⟩) = .ok y ∧
          as2[k]? = some (.Assignment pos [x, y]) := by
  intro is
  induction is with
  | nil =>
    intro _
    exact ⟨[], by simp [expandAssignList], rfl, fun k hk => absurd hk (by simp)⟩
  | cons i rest ih =>
    intro hsucc
    obtain ⟨⟨x, hx⟩, y, hy⟩ := hsucc i (List.mem_cons_self i rest)
    obtain ⟨as2, h1, h2, h3⟩ := ih fun j hj => hsucc j (List.mem_cons_of_mem i hj)
    refine ⟨.Assignment pos [x, y] :: as2, ?_, by simp [h2], ?_⟩
    · simp only [expandAssignList, hx, hy, h1]
    · intro k hk
      cases k with
      | zero => exact ⟨x, y, hx, hy, by simp⟩
      | succ k =>
        have hk2 : k < rest.length := by simpa using hk
        obtain ⟨x2, y2, ha2, hb2, hc2⟩ := h3 k hk2
        exact ⟨x2, y2, ha2, hb2, by simpa using hc2⟩

/-!  ## The claims  -/

/-- A memory reference indexed by a constant in-range pair `[lo, hi]`
resolves to size `hi - lo + 1`. -/
theorem mv_range_size (p a sz q : Nat) (w : Bool) (lo hi : Int)
    (h1 : lo ≤ hi) (h2 : hi - lo + 1 < (UW : Int)) :
    getMemorySize (.MemoryVector p a sz w [.StaticVector q [lo, hi]])
      = .ok (hi - lo + 1).toNat := by
  simp only [getMemorySize, getMemorySizeS, staticVectorMemorySize, svGetValue,
    toUnsigned]
  norm_num
  rw [Int.emod_eq_of_lt (by omega) (by exact_mod_cast h2)]

/-- Claim C1, counterexample: an Assignment whose two children both have
resolved memory size 2 but whose target is a StaticVector literal (not a
MemoryReference) is not replaced by a Block of two single-element
Assignments — the downcast assertion fails instead. -/
theorem c1_counterexample :
    getMemorySize (.StaticVector 1 [1, 2]) = .ok 2 ∧
    getMemorySize (.StaticVector 2 [5, 6]) = .ok 2 ∧
    treeExpand false (.Assignment 3 [.StaticVector 1 [1, 2], .StaticVector 2 [5, 6]]) 0
      = .error .assertFail := by
  have hl : getMemorySize (.StaticVector 1 [1, 2]) = .ok 2 := rfl
  have hr : getMemorySize (.StaticVector 2 [5, 6]) = .ok 2 := rfl
  exact ⟨hl, hr, by simp [treeExpand, hl, hr, isMemoryVector]⟩

/-- Claim C1 (amended: the target must itself be a MemoryReference node,
and the per-element expansions must succeed): for an Assignment whose
MemoryReference target and value both have resolved memory size `n`,
`treeExpand` replaces the Assignment by a Block holding exactly `n` freshly
built single-element Assignment nodes, in ascending element order
`i = 0..n-1`, the `i`-th pairing the write-marked target expanded at `i`
with the value expanded at `i`; the original Assignment is discarded. -/
theorem c1_assignment_expansion (d : Bool) (pos idx lp la ls : Nat) (lw : Bool)
    (lcs : List Node) (r : Node) (n : Nat)
    (hsl : getMemorySize (.MemoryVector lp la ls lw lcs) = .ok n)
    (hsr : getMemorySize r = .ok n)
    (hval : ∀ i, i < n → ∃ y, treeExpand d r i = .ok y) :
    ∃ as2,
      treeExpand d (.Assignment pos [.MemoryVector lp la ls lw lcs, r]) idx
        = .ok (.Block pos as2) ∧
      as2.length = n ∧
      ∀ i (hi : i < n), ∃ x y,
        treeExpand d (.MemoryVector lp la ls true lcs) i = .ok x ∧
        treeExpand d r i = .ok y ∧
        as2[i]? = some (.Assignment pos [x, y]) := by
  have hslw : getMemorySize (.MemoryVector lp la ls true lcs) = .ok n :=
    (getMemorySize_write_irrel lp la ls true lw lcs).trans hsl
  have hlv : ∀ i ∈ List.range n,
      (∃ x, treeExpand d (.MemoryVector lp la ls true lcs) i = .ok x) ∧
        ∃ y, treeExpand d r i = .ok y := fun i hi =>
    ⟨mv_expand_ok d lp la ls true lcs n i hslw (List.mem_range.mp hi),
      hval i (List.mem_range.mp hi)⟩
  obtain ⟨as2, h1, h2, h3⟩ :=
    expandAssignList_ok d pos (.MemoryVector lp la ls true lcs) r (List.range n) hlv
  refine ⟨as2, ?_, by simpa using h2, ?_⟩
  · simp [treeExpand, hsl, hsr, isMemoryVector, setWrite, h1]
  · intro i hi
    obtain ⟨x, y, hx, hy, hxy⟩ := h3 i (by simpa using hi)
    rw [List.get_range] at hx hy
    exact ⟨x, y, hx, hy, hxy⟩

/-- Witness for claim C1's amended theorem: a size-3 full-array assignment
target at base 10 and value at base 20. -/
theorem c1_witness :
    ∃ as2,
      treeExpand false
          (.Assignment 7 [.MemoryVector 1 10 3 false [], .MemoryVector 2 20 3 false []]) 0
        = .ok (.Block 7 as2) ∧
      as2.length = 3 ∧
      ∀ i (hi : i < 3), ∃ x y,
        treeExpand false (.MemoryVector 1 10 3 true []) i = .ok x ∧
        treeExpand false (.MemoryVector 2 20 3 false []) i = .ok y ∧
        as2[i]? = some (.Assignment 7 [x, y]) :=
  c1_assignment_expansion false 7 0 1 10 3 false [] (.MemoryVector 2 20 3 false []) 3
    rfl rfl (fun i hi => mv_expand_ok false 2 20 3 false [] 3 i rfl hi)

/-- Claim C2: an Assignment or BinaryArithmetic whose two children have
unequal resolved memory sizes expands to exactly the fatal error carrying
the node's source position and both operand sizes — nothing else happens
(no write marking, no synthesized nodes, no scalarization of any part). -/
theorem c2_size_mismatch_fatal (d : Bool) (pos idx op ls rs : Nat) (l r : Node)
    (hsl : getMemorySize l = .ok ls) (hsr : getMemorySize r = .ok rs)
    (hne : ls ≠ rs) :
    treeExpand d (.Assignment pos [l, r]) idx
      = .error (.userError pos (.inconsistentSize ls rs)) ∧
    treeExpand d (.BinaryArithmetic pos op [l, r]) idx
      = .error (.userError pos (.inconsistentSize ls rs)) := by
  constructor <;> simp [treeExpand, hsl, hsr, hne]

/-- Witness for claim C2: assigning a size-2 array to a size-3 array. -/
theorem c2_witness :
    treeExpand false
        (.Assignment 4 [.MemoryVector 1 10 3 false [], .MemoryVector 2 20 2 false []]) 0
      = .error (.userError 4 (.inconsistentSize 3 2)) ∧
    treeExpand false
        (.BinaryArithmetic 4 0 [.MemoryVector 1 10 3 false [], .MemoryVector 2 20 2 false []]) 0
      = .error (.userError 4 (.inconsistentSize 3 2)) :=
  c2_size_mismatch_fatal false 4 0 0 3 2 (.MemoryVector 1 10 3 false [])
    (.MemoryVector 2 20 2 false []) rfl rfl (by decide)

/-- Claim C3, counterexample: an empty Block is returned unchanged by a
successful expansion; it is a reachable childless leaf of the output tree
that is not an Immediate, Load or Store, and its memory size is the
`E_NOVAL` sentinel rather than 1. -/
theorem c3_counterexample :
    treeExpand false (.Block 5 []) 0 = .ok (.Block 5 []) ∧
    (Node.Block 5 []) ∈ subnodes (.Block 5 []) ∧
    Node.children (.Block 5 []) = [] ∧
    isScalarLeaf (.Block 5 []) = false ∧
    getMemorySize (.Block 5 []) = .ok E_NOVAL := by
  refine ⟨?_, ?_, rfl, rfl, rfl⟩
  · simp [treeExpand, expandChildren]
  · simp [subnodes]

/-- Claim C3 (amended: a childless container Block node may also remain,
e.g. an empty Block input survives expansion): on every tree on which
`treeExpand` succeeds, no StaticVector and no unexpanded MemoryReference
node remains anywhere in the result, and every reachable childless leaf is
either a scalar variant Immediate/Load/Store of memory size exactly 1 or an
empty Block container. -/
theorem c3_expansion_scalar_leaves (d : Bool) (n : Node) (idx : Nat) (r m : Node)
    (hr : treeExpand d n idx = .ok r) (hm : m ∈ subnodes r) :
    isStaticVector m = false ∧ isMemoryVector m = false ∧
      (Node.children m = [] →
        (isScalarLeaf m = true ∧ getMemorySize m = .ok 1) ∨ ∃ q, m = .Block q []) :=
  scalarized_mem r m (expand_scalarized d n idx r hr) hm

/-- Witness for claim C3's amended theorem: the Store leaf produced by
expanding a size-1 assignment. -/
theorem c3_witness :
    isStaticVector (.Store 1 10) = false ∧ isMemoryVector (.Store 1 10) = false ∧
      (Node.children (.Store 1 10) = [] →
        (isScalarLeaf (.Store 1 10) = true ∧ getMemorySize (.Store 1 10) = .ok 1) ∨
          ∃ q, Node.Store 1 10 = .Block q []) :=
  c3_expansion_scalar_leaves false
    (.Assignment 0 [.MemoryVector 1 10 1 false [], .MemoryVector 2 20 1 false []]) 0
    (.Block 0 [.Assignment 0 [.Store 1 10, .Load 2 20]]) (.Store 1 10)
    (by
      have hlv : treeExpand false (.MemoryVector 1 10 1 true []) 0 = .ok (.Store 1 10) := by
        simpa using mv_expand_eq false 1 10 1 true [] 1 10 0 rfl rfl (by decide)
      have hrv : treeExpand false (.MemoryVector 2 20 1 false []) 0 = .ok (.Load 2 20) := by
        simpa using mv_expand_eq false 2 20 1 false [] 1 20 0 rfl rfl (by decide)
      have hr1 : List.range 1 = [0] := rfl
      simp [treeExpand, expandAssignList, hr1, hlv, hrv, setWrite,
        isMemoryVector, getMemorySize, getMemorySizeS, sizeFoldS, staticVectorMemorySize])
    (by simp [subnodes, subnodesList])

/-- Claim C4: the four size-resolution cases of a MemoryReference — full
array without index child; single compile-time-constant index; constant
range `[lo, hi]`; non-constant index. -/
theorem c4_memref_size_cases (p a sz q : Nat) (w : Bool) (v lo hi : Int) (c : Node) :
    getMemorySize (.MemoryVector p a sz w []) = .ok sz
    ∧ getMemorySize (.MemoryVector p a sz w [.StaticVector q [v]]) = .ok 1
    ∧ (lo ≤ hi → hi - lo + 1 < (UW : Int) →
        getMemorySize (.MemoryVector p a sz w [.StaticVector q [lo, hi]])
          = .ok (hi - lo + 1).toNat)
    ∧ (isStaticVector c = false →
        getMemorySize (.MemoryVector p a sz w [c]) = .ok 1) := by
  refine ⟨rfl, rfl, fun h1 h2 => mv_range_size p a sz q w lo hi h1 h2,
    fun hc => ?_⟩
  cases c <;> first | rfl | (exfalso; simp [isStaticVector] at hc)

/-- Witness for claim C4: array of declared size 5 at base 10; single index
3; range `[2, 4]`; a (non-constant) Immediate index child. -/
theorem c4_witness :
    getMemorySize (.MemoryVector 0 10 5 false []) = .ok 5
    ∧ getMemorySize (.MemoryVector 0 10 5 false [.StaticVector 1 [3]]) = .ok 1
    ∧ getMemorySize (.MemoryVector 0 10 5 false [.StaticVector 1 [2, 4]]) = .ok 3
    ∧ getMemorySize (.MemoryVector 0 10 5 false [.Immediate 9 0]) = .ok 1 := by
  obtain ⟨h1, h2, h3, h4⟩ :=
    c4_memref_size_cases 0 10 5 1 false 3 2 4 (.Immediate 9 0)
  exact ⟨h1, h2, by simpa using h3 (by decide) (by norm_num [UW]), h4 rfl⟩

/-- Claim C5: expanding a MemoryReference at an in-range element index
yields a Store at `address + index` when the node is marked for write and a
Load there otherwise; for a constant range index `[lo, hi]` element `i`
resolves to address `base + lo + i`, and a single constant index `k`
resolves to size 1 and address `base + k`. -/
theorem c5_memref_expand_load_store (d : Bool) (p a sz q : Nat) (w : Bool)
    (cs : List Node) (s b i : Nat) (lo hi k : Int) :
    (getMemorySize (.MemoryVector p a sz w cs) = .ok s →
      getMemoryAddr (.MemoryVector p a sz w cs) = .ok b →
      i < s → b + i < UW →
      treeExpand d (.MemoryVector p a sz w cs) i
        = .ok (if w then .Store p (b + i) else .Load p (b + i)))
    ∧ (0 ≤ lo → lo ≤ hi → hi - lo + 1 < (UW : Int) → a + lo.toNat + i < UW →
        i < (hi - lo + 1).toNat →
        treeExpand d (.MemoryVector p a sz w [.StaticVector q [lo, hi]]) i
          = .ok (if w then .Store p (a + lo.toNat + i) else .Load p (a + lo.toNat + i)))
    ∧ (0 ≤ k → a + k.toNat < UW →
        getMemorySize (.MemoryVector p a sz w [.StaticVector q [k]]) = .ok 1 ∧
        getMemoryAddr (.MemoryVector p a sz w [.StaticVector q [k]]) = .ok (a + k.toNat)) := by
  refine ⟨fun hs hb hi hlt => ?_, fun h0 hlh hspan hai hir => ?_, fun h0 hak => ?_⟩
  · rw [mv_expand_eq d p a sz w cs s b i hs hb hi, Nat.mod_eq_of_lt hlt]
  · have hlo : lo < (UW : Int) := by
      have : lo.toNat < UW := by omega
      omega
    have htn : toUnsigned lo = lo.toNat := by
      simp only [toUnsigned]
      rw [Int.emod_eq_of_lt h0 hlo]
    have hs : getMemorySize (.MemoryVector p a sz w [.StaticVector q [lo, hi]])
        = .ok ((hi - lo + 1).toNat) := mv_range_size p a sz q w lo hi hlh hspan
    have hb : getMemoryAddr (.MemoryVector p a sz w [.StaticVector q [lo, hi]])
        = .ok (a + lo.toNat) := by
      simp only [getMemoryAddr, getMemoryAddrS, svGetValue]
      norm_num
      rw [htn, Nat.mod_eq_of_lt (by omega)]
    rw [mv_expand_eq d p a sz w [.StaticVector q [lo, hi]] ((hi - lo + 1).toNat)
        (a + lo.toNat) i hs hb hir, Nat.mod_eq_of_lt (by omega)]
  · have hko : k < (UW : Int) := by
      have : k.toNat < UW := by omega
      omega
    have htn : toUnsigned k = k.toNat := by
      simp only [toUnsigned]
      rw [Int.emod_eq_of_lt h0 hko]
    refine ⟨rfl, ?_⟩
    simp only [getMemoryAddr, getMemoryAddrS, svGetValue]
    norm_num
    rw [htn, Nat.mod_eq_of_lt hak]

/-- Witness for claim C5: a size-5 array at base 10, marked for write;
general element 1; range `[2, 4]` element 1 (address 13); single index 3
(address 13). -/
theorem c5_witness :
    treeExpand false (.MemoryVector 0 10 5 true []) 1 = .ok (.Store 0 11)
    ∧ treeExpand false (.MemoryVector 0 10 5 true [.StaticVector 1 [2, 4]]) 1
        = .ok (.Store 0 13)
    ∧ getMemorySize (.MemoryVector 0 10 5 true [.StaticVector 1 [3]]) = .ok 1
    ∧ getMemoryAddr (.MemoryVector 0 10 5 true [.StaticVector 1 [3]]) = .ok 13 := by
  obtain ⟨h1, h2, h3⟩ :=
    c5_memref_expand_load_store false 0 10 5 1 true [] 5 10 1 2 4 3
  refine ⟨?_, ?_, ?_, ?_⟩
  · simpa using h1 rfl rfl (by decide) (by decide)
  · simpa using h2 (by decide) (by decide) (by decide) (by decide) (by decide)
  · exact (h3 (by decide) (by decide)).1
  · simpa using (h3 (by decide) (by decide)).2

/-- Claim C6, counterexample: for a MemoryReference whose index child is
not compile-time-constant, `getMemoryAddr` does return the `E_NOVAL`
sentinel — but `treeExpand` then adds the element index to that sentinel
unchecked and succeeds, synthesizing a Load at the absolute address
`E_NOVAL`, contradicting "expansion never computes an absolute Load/Store
address by adding an element index to an unknown address". -/
theorem c6_counterexample :
    getMemoryAddr (.MemoryVector 0 10 5 false [.MemoryVector 1 20 5 false []])
      = .ok E_NOVAL
    ∧ treeExpand false (.MemoryVector 0 10 5 false [.MemoryVector 1 20 5 false []]) 0
        = .ok (.Load 0 E_NOVAL) := by
  refine ⟨rfl, ?_⟩
  have h := mv_expand_eq false 0 10 5 false [.MemoryVector 1 20 5 false []]
    1 E_NOVAL 0 rfl rfl (by decide)
  simpa [E_NOVAL, UW] using h

/-- Claim C6 (amended: the sentinel is returned, but its consumer in
`treeExpand` does not check resolvability): for every MemoryReference whose
single index child is not a compile-time constant, `getMemoryAddr` returns
the sentinel `E_NOVAL`, and `treeExpand` nevertheless succeeds at index 0,
synthesizing a Store (write) or Load (read) whose absolute address is the
sentinel plus the index — address arithmetic is performed on the unknown
marker. -/
theorem c6_sentinel_unchecked (d : Bool) (p a sz : Nat) (w : Bool) (c : Node)
    (hc : isStaticVector c = false) :
    getMemoryAddr (.MemoryVector p a sz w [c]) = .ok E_NOVAL ∧
    treeExpand d (.MemoryVector p a sz w [c]) 0
      = .ok (if w then .Store p E_NOVAL else .Load p E_NOVAL) := by
  have hb : getMemoryAddr (.MemoryVector p a sz w [c]) = .ok E_NOVAL := by
    cases c <;> first | rfl | (exfalso; simp [isStaticVector] at hc)
  have hs : getMemorySize (.MemoryVector p a sz w [c]) = .ok 1 := by
    cases c <;> first | rfl | (exfalso; simp [isStaticVector] at hc)
  refine ⟨hb, ?_⟩
  have h := mv_expand_eq d p a sz w [c] 1 E_NOVAL 0 hs hb (by decide)
  simpa [E_NOVAL, UW] using h

/-- Witness for claim C6's amended theorem: a write-marked reference whose
index child is an arithmetic expression. -/
theorem c6_witness :
    getMemoryAddr (.MemoryVector 9 100 4 true [.UnaryArithmetic 2 0 [.Immediate 3 5]])
      = .ok E_NOVAL ∧
    treeExpand true (.MemoryVector 9 100 4 true [.UnaryArithmetic 2 0 [.Immediate 3 5]]) 0
      = .ok (.Store 9 E_NOVAL) := by
  have h := c6_sentinel_unchecked true 9 100 4 true (.UnaryArithmetic 2 0 [.Immediate 3 5]) rfl
  simpa using h

/-- Claim C7: the `getMemorySize` and `getMemoryAddr` queries are
side-effect-free and idempotent — each leaves the tree exactly as it found
it, and running a query again on the tree a first run left behind gives the
identical result (value or error) and tree. -/
theorem c7_queries_pure_idempotent (n : Node) :
    (getMemorySizeS n).2 = n ∧ (getMemoryAddrS n).2 = n ∧
    getMemorySizeS ((getMemorySizeS n).2) = getMemorySizeS n ∧
    getMemoryAddrS ((getMemoryAddrS n).2) = getMemoryAddrS n := by
  refine ⟨getMemorySizeS_snd n, getMemoryAddrS_snd n, ?_, ?_⟩
  · rw [getMemorySizeS_snd n]
  · rw [getMemoryAddrS_snd n]

/-- Claim C8: the tree returned by `treeExpand` is identical whether the
diagnostic dump stream is supplied or absent. -/
theorem c8_dump_independent (d d2 : Bool) (n : Node) (i : Nat) :
    treeExpand d n i = treeExpand d2 n i :=
  expand_dump n i d d2

/-- Claim C9: an Assignment that passes the size-match check but whose
first child (the target) is not a MemoryReference node fails the downcast
assertion, even though both operand sizes agree. -/
theorem c9_target_downcast_assert (d : Bool) (pos idx s : Nat) (l r : Node)
    (hsl : getMemorySize l = .ok s) (hsr : getMemorySize r = .ok s)
    (hnm : isMemoryVector l = false) :
    treeExpand d (.Assignment pos [l, r]) idx = .error .assertFail := by
  simp [treeExpand, hsl, hsr, hnm]

/-- Witness for claim C9: both children are StaticVector literals of
size 3. -/
theorem c9_witness :
    treeExpand false (.Assignment 8 [.StaticVector 1 [1, 2, 3], .StaticVector 2 [4, 5, 6]]) 0
      = .error .assertFail :=
  c9_target_downcast_assert false 8 0 3 (.StaticVector 1 [1, 2, 3])
    (.StaticVector 2 [4, 5, 6]) rfl rfl rfl

/-- Claim C10: for a constant index vector of length at least 2 whose first
value `lo` and second value `hi` form a reversed range (`hi < lo`),
`getMemorySize` returns `hi - lo + 1` computed in unsigned machine
arithmetic, i.e. the wraparound value modulo `2^32`, not zero and not an
error. -/
theorem c10_reversed_range_wraparound (p a sz q : Nat) (w : Bool) (lo hi : Int)
    (rest : List Int) (hrev : hi < lo) :
    getMemorySize (.MemoryVector p a sz w [.StaticVector q (lo :: hi :: rest)])
      = .ok (((hi - lo + 1) % (2 ^ 32 : Int)).toNat) := by
  rcases rest with _ | ⟨r0, rtail⟩
  · simp [getMemorySize, getMemorySizeS, staticVectorMemorySize, svGetValue,
      toUnsigned, UW]
  · simp [getMemorySize, getMemorySizeS, staticVectorMemorySize, svGetValue,
      toUnsigned, UW]

/-- Witness for claim C10: the reversed range `[5, 2]` resolves to size
`2^32 - 2 = 4294967294`. -/
theorem c10_witness :
    getMemorySize (.MemoryVector 0 10 5 false [.StaticVector 1 [5, 2]])
      = .ok 4294967294 := by
  have h := c10_reversed_range_wraparound 0 10 5 1 false 5 2 [] (by decide)
  simpa using h

end Aseba
